import Mathlib

/-!
Shallow embedding of `Mantel.py` (the `Test` function of the MantelTest
repository) and verification of its specification.

Numbers are modelled over `ℚ` for the exact parts of the pipeline and over
`ℝ` once a square root or a division by a square root occurs.  numpy arrays
become `List ℚ` (1-D) and `List (List ℚ)` (2-D); the process-wide numpy
random generator becomes an explicit stream `orders : ℕ → List ℕ` giving the
permutation drawn at each Monte Carlo trial.  Exceptions become `Except`.
-/

namespace Mantel

/-- A numpy array argument to `Test`: either a 1-D array (condensed distance
vector) or a 2-D array (redundant distance matrix). -/
inductive DistInput where
  | vec (v : List ℚ)
  | mat (m : List (List ℚ))
deriving DecidableEq

/-- The `ValueError`s raised by `Test`: `'X is not a valid distance matrix'`,
`'Y is not a valid distance matrix'`, `'X and Y are not of equal size'`.
There is no error for an unsupported `method` string in the source. -/
inductive MantelError where
  | invalidX
  | invalidY
  | sizeMismatch
deriving DecidableEq

/-- Entry `M[i][j]` of a 2-D array, with the usual out-of-range default. -/
def matGet (M : List (List ℚ)) (i j : ℕ) : ℚ :=
  (M.getD i []).getD j 0

/-- Search upward from `d` for the least `e ≥ d` with `m ≤ e * e`.  Written
with explicit fuel so that it is structurally recursive. -/
def ceilSqrtAux (m : ℕ) : ℕ → ℕ → ℕ
  | 0, d => d
  | fuel + 1, d => if m ≤ d * d then d else ceilSqrtAux m fuel (d + 1)

/-- `int(ceil(sqrt(m)))` on naturals: the least `d` with `m ≤ d * d`. -/
def ceilSqrt (m : ℕ) : ℕ := ceilSqrtAux m m 0

/-- `scipy.spatial.distance.is_valid_y`: a 1-D array whose length `L`
satisfies `d*(d-1)/2 == L` for `d = int(ceil(sqrt(2*L)))`.  A 2-D array is
never a valid condensed vector. -/
def is_valid_y : DistInput → Bool
  | .vec v =>
      ceilSqrt (2 * v.length) * (ceilSqrt (2 * v.length) - 1) / 2 == v.length
  | .mat _ => false

/-- `scipy.spatial.distance.is_valid_dm` (with `tol = 0`): a 2-D square array
that equals its transpose and has an all-zero diagonal.  A 1-D array is never
a valid distance matrix. -/
def is_valid_dm : DistInput → Bool
  | .vec _ => false
  | .mat M =>
      (M.all fun row => row.length == M.length) &&
      (decide (∀ i < M.length, ∀ j < M.length, matGet M i j = matGet M j i)) &&
      (decide (∀ i < M.length, matGet M i i = 0))

/-- Peel the upper triangle of a square matrix row by row: take row `0`
without its first (diagonal) entry, then recurse on the remaining rows with
their first column removed.  The fuel argument (the number of rows) makes
the recursion structural. -/
def tovectorAux : ℕ → List (List ℚ) → List ℚ
  | 0, _ => []
  | _ + 1, [] => []
  | fuel + 1, row :: rows => row.drop 1 ++ tovectorAux fuel (rows.map fun r => r.drop 1)

/-- `scipy.spatial.distance.squareform(·, 'tovector', False)`: extract the
upper triangle of a square matrix in row-major order (row `0` columns
`1..n-1`, then row `1` columns `2..n-1`, and so on). -/
def sqform_tovector (M : List (List ℚ)) : List ℚ :=
  tovectorAux M.length M

/-- Build the `n × n` symmetric zero-diagonal matrix whose upper triangle,
read in row-major order, is the given condensed vector: row `0` is
`0, v[0], ..., v[n-2]`, and the lower-right `(n-1) × (n-1)` block is built
from the rest of `v`, with the first row mirrored into the first column. -/
def tomatrixAux : ℕ → List ℚ → List (List ℚ)
  | 0, _ => []
  | n + 1, v =>
      (0 :: v.take n) :: List.zipWith List.cons (v.take n) (tomatrixAux n (v.drop n))

/-- `scipy.spatial.distance.squareform(·, 'tomatrix', False)`: the matrix
size is recovered from the vector length as `d = int(ceil(sqrt(2*L)))`. -/
def sqform_tomatrix (v : List ℚ) : List (List ℚ) :=
  tomatrixAux (ceilSqrt (2 * v.length)) v

/-- `scipy.stats.rankdata` with the default `'average'` method: each value is
ranked by `(#strictly smaller) + ((#equal) + 1) / 2`, so tied values share
the average of the ranks they occupy. -/
def rankdata (xs : List ℚ) : List ℚ :=
  xs.map fun x =>
    ((xs.countP fun y => decide (y < x) : ℕ) : ℚ) +
      (((xs.countP fun y => decide (y = x) : ℕ) : ℚ) + 1) / 2

/-- numpy `.mean()` of a 1-D array. -/
def npMean (xs : List ℚ) : ℚ := xs.sum / (xs.length : ℚ)

/-- `X - X.mean()`, the residual vector. -/
def residuals (xs : List ℚ) : List ℚ := xs.map fun x => x - npMean xs

/-- numpy `sum(xs * ys)`: elementwise product, then sum. -/
def dot (xs ys : List ℚ) : ℚ := (List.zipWith (· * ·) xs ys).sum

/-- Condense an input to vector form: a 2-D array goes through
`squareform(·, 'tovector', False)`; a 1-D array is already condensed. -/
def condense : DistInput → List ℚ
  | .vec v => v
  | .mat M => sqform_tovector M

/-- Lines 41-69 of `Mantel.py`: validate both inputs, condense matrices to
vectors, check equal size, and rank-transform under `'spearman'`.  Any
`method` other than `'spearman'` leaves the values unchanged (the source has
no unsupported-method check). -/
def prepare (method : String) (X Y : DistInput) :
    Except MantelError (List ℚ × List ℚ) :=
  if is_valid_dm X == false && is_valid_y X == false then .error .invalidX
  else if is_valid_dm Y == false && is_valid_y Y == false then .error .invalidY
  else
    let Xc := condense X
    let Yc := condense Y
    if Xc.length ≠ Yc.length then .error .sizeMismatch
    else if method == "spearman" then .ok (rankdata Xc, rankdata Yc)
    else .ok (Xc, Yc)

/-- numpy fancy indexing `M[order, :][:, order]`: entry `(i, j)` of the
result is `M[order[i]][order[j]]`. -/
def permuteMat (M : List (List ℚ)) (order : List ℕ) : List (List ℚ) :=
  order.map fun i => order.map fun j => matGet M i j

/-- `denominator = sqrt(X_ss * Y_ss)` where `X_ss`/`Y_ss` are the sums of
squared residuals (line 77 of `Mantel.py`). -/
noncomputable def denomR (x y : List ℚ) : ℝ :=
  Real.sqrt (((dot (residuals x) (residuals x) * dot (residuals y) (residuals y) : ℚ) : ℝ))

/-- The Monte Carlo loop (lines 91-95 of `Mantel.py`): trial `i` permutes the
matrix form of `Y_res` by `orders i`, condenses it back to a vector, and
stores `sum(X_res * Y_res_permuted) / denominator` at index `i`. -/
noncomputable def mcLoop (orders : ℕ → List ℕ) (xr : List ℚ) (M : List (List ℚ))
    (den : ℝ) : ℕ → List ℝ
  | 0 => []
  | i + 1 =>
      mcLoop orders xr M den i ++
        [((dot xr (sqform_tovector (permuteMat M (orders i))) : ℚ) : ℝ) / den]

/-- Lines 73-104 of `Mantel.py` on the prepared vectors: residuals, the
Monte Carlo sample correlations, and the returned `(z, r, m, sd)`. -/
noncomputable def mantelStats (orders : ℕ → List ℕ) (perms : ℕ) (x y : List ℚ) :
    ℝ × ℝ × ℝ × ℝ :=
  let samples := mcLoop orders (residuals x) (sqform_tomatrix (residuals y)) (denomR x y) perms
  let r : ℝ := ((dot (residuals x) (residuals y) : ℚ) : ℝ) / denomR x y
  let m : ℝ := samples.sum / (samples.length : ℝ)
  let sd : ℝ := Real.sqrt ((samples.map fun c => (c - m) ^ 2).sum / (samples.length : ℝ))
  let z : ℝ := (r - m) / sd
  (z, r, m, sd)

/-- `Mantel.Test`: validation/normalization followed by the statistics. -/
noncomputable def Test (orders : ℕ → List ℕ) (X Y : DistInput) (perms : ℕ)
    (method : String) : Except MantelError (ℝ × ℝ × ℝ × ℝ) :=
  (prepare method X Y).map fun p => mantelStats orders perms p.1 p.2

/-! ### Spec-side definitions (for refinement claims) -/

/-- The textbook Pearson correlation coefficient of two vectors:
`Σ (xᵢ - x̄)(yᵢ - ȳ) / (sqrt (Σ (xᵢ - x̄)²) * sqrt (Σ (yᵢ - ȳ)²))`. -/
noncomputable def specPearson (x y : List ℚ) : ℝ :=
  (((List.zipWith (fun a b => (a - npMean x) * (b - npMean y)) x y).sum : ℚ) : ℝ) /
    (Real.sqrt (((x.map fun a => (a - npMean x) ^ 2).sum : ℚ) : ℝ) *
      Real.sqrt (((y.map fun b => (b - npMean y) ^ 2).sum : ℚ) : ℝ))

/-- The 1-based positions that the value `v` occupies in a sorted
rearrangement of `xs`. -/
def sortedRanksOf (xs : List ℚ) (v : ℚ) : List ℚ :=
  (((List.range xs.length).filter fun p =>
      decide ((List.insertionSort (· ≤ ·) xs).getD p 0 = v)).map
    fun p : ℕ => ((p : ℚ) + 1))

/-- The average of the ranks that the value `v` would occupy in a sorted
rearrangement of `xs` (the spec's fractional ranking of ties). -/
def specAvgRank (xs : List ℚ) (v : ℚ) : ℚ :=
  (sortedRanksOf xs v).sum / ((sortedRanksOf xs v).length : ℚ)

/-! ### Basic lemmas about the Monte Carlo loop -/

theorem mcLoop_length (orders : ℕ → List ℕ) (xr : List ℚ) (M : List (List ℚ))
    (den : ℝ) : ∀ p, (mcLoop orders xr M den p).length = p := by
  intro p
  induction p with
  | zero => rfl
  | succ p ih => simp [mcLoop, ih]

theorem mcLoop_getD (orders : ℕ → List ℕ) (xr : List ℚ) (M : List (List ℚ))
    (den : ℝ) : ∀ p i, i < p →
      (mcLoop orders xr M den p).getD i 0 =
        ((dot xr (sqform_tovector (permuteMat M (orders i))) : ℚ) : ℝ) / den := by
  intro p
  induction p with
  | zero => intro i hi; omega
  | succ p ih =>
      intro i hi
      rcases Nat.lt_succ_iff_lt_or_eq.mp hi with h | h
      · rw [mcLoop, List.getD_append _ _ _ _ (by rw [mcLoop_length]; exact h)]
        exact ih i h
      · subst h
        rw [mcLoop, List.getD_eq_getElem?_getD, List.getElem?_append_right
              (by rw [mcLoop_length])]
        simp [mcLoop_length]

/-! ### C2: shape and contents of the Monte Carlo sample sequence -/

/-- C2: for every valid input (inputs that `prepare` accepts) and every
positive trial count `perms`, the Monte Carlo loop of `Test` produces exactly
`perms` sample correlations, and the `i`-th one is
`sum(X_res * Y_res_permuted_i) / denominator`, where `Y_res_permuted_i` is
the re-condensed row-and-column permutation (by the `i`-th drawn order) of
the matrix form of `Y_res`. -/
theorem mc_samples_length_and_values (orders : ℕ → List ℕ) (perms : ℕ)
    (method : String) (X Y : DistInput) (x y : List ℚ)
    (_hp : prepare method X Y = .ok (x, y)) (_hperms : 0 < perms) :
    (mcLoop orders (residuals x) (sqform_tomatrix (residuals y)) (denomR x y) perms).length
        = perms ∧
    ∀ i < perms,
      (mcLoop orders (residuals x) (sqform_tomatrix (residuals y)) (denomR x y) perms).getD i 0 =
        ((dot (residuals x)
            (sqform_tovector (permuteMat (sqform_tomatrix (residuals y)) (orders i))) : ℚ) : ℝ)
          / denomR x y := by
  refine ⟨mcLoop_length _ _ _ _ _, fun i hi => mcLoop_getD _ _ _ _ _ i hi⟩

theorem mc_samples_length_and_values_witness :
    (prepare "pearson" (.vec [1, 2, 3]) (.vec [2, 4, 5]) = .ok ([1, 2, 3], [2, 4, 5])) ∧
    (0 < 2) ∧
    ((mcLoop (fun _ => [2, 0, 1]) (residuals [1, 2, 3])
        (sqform_tomatrix (residuals [2, 4, 5])) (denomR [1, 2, 3] [2, 4, 5]) 2).length = 2 ∧
      ∀ i < 2,
        (mcLoop (fun _ => [2, 0, 1]) (residuals [1, 2, 3])
            (sqform_tomatrix (residuals [2, 4, 5])) (denomR [1, 2, 3] [2, 4, 5]) 2).getD i 0 =
          ((dot (residuals [1, 2, 3])
              (sqform_tovector (permuteMat (sqform_tomatrix (residuals [2, 4, 5]))
                ((fun _ => [2, 0, 1]) i))) : ℚ) : ℝ)
            / denomR [1, 2, 3] [2, 4, 5]) :=
  ⟨rfl, by decide,
    mc_samples_length_and_values (fun _ => [2, 0, 1]) 2 "pearson"
      (.vec [1, 2, 3]) (.vec [2, 4, 5]) [1, 2, 3] [2, 4, 5] rfl (by decide)⟩

/-! ### C4: there is no unsupported-method error -/

/-- C4 counterexample: calling `Test` with `method = "kendall"` does not fail
at all — `Test` returns a result, so no `UnsupportedMethod` error is
surfaced. -/
theorem kendall_method_accepted :
    (Test (fun _ => [0, 1, 2]) (.vec [1, 2, 3]) (.vec [1, 2, 3]) 1 "kendall").isOk = true :=
  rfl

/-- C4 amended: the source never validates `method`; every method string
other than `"spearman"` is silently treated exactly like `"pearson"`. -/
theorem non_spearman_method_eq_pearson (orders : ℕ → List ℕ) (X Y : DistInput)
    (perms : ℕ) (method : String) (h : method ≠ "spearman") :
    Test orders X Y perms method = Test orders X Y perms "pearson" := by
  have h1 : (method == "spearman") = false := by
    simpa using h
  simp [Test, prepare, h1]

theorem non_spearman_method_eq_pearson_witness :
    "kendall" ≠ "spearman" ∧
      Test (fun _ => [0, 1, 2]) (.vec [1, 2, 3]) (.vec [1, 2, 3]) 1 "kendall" =
        Test (fun _ => [0, 1, 2]) (.vec [1, 2, 3]) (.vec [1, 2, 3]) 1 "pearson" :=
  ⟨by decide,
    non_spearman_method_eq_pearson (fun _ => [0, 1, 2]) (.vec [1, 2, 3]) (.vec [1, 2, 3])
      1 "kendall" (by decide)⟩

/-! ### C6: size mismatch -/

/-- C6: when both inputs individually pass the distance-matrix/vector check
but their condensed vector forms have different lengths, `Test` raises the
`'X and Y are not of equal size'` error (and nothing else is computed). -/
theorem size_mismatch_error (orders : ℕ → List ℕ) (perms : ℕ) (method : String)
    (X Y : DistInput)
    (hX : (is_valid_dm X || is_valid_y X) = true)
    (hY : (is_valid_dm Y || is_valid_y Y) = true)
    (hlen : (condense X).length ≠ (condense Y).length) :
    Test orders X Y perms method = .error .sizeMismatch := by
  have h1 : ¬(is_valid_dm X = false ∧ is_valid_y X = false) := by
    intro h
    rw [h.1, h.2] at hX
    simp at hX
  have h2 : ¬(is_valid_dm Y = false ∧ is_valid_y Y = false) := by
    intro h
    rw [h.1, h.2] at hY
    simp at hY
  simp [Test, prepare, h1, h2, hlen, Except.map]

theorem size_mismatch_error_witness :
    ((is_valid_dm (.vec [1, 2, 3]) || is_valid_y (.vec [1, 2, 3])) = true) ∧
    ((is_valid_dm (.vec [1]) || is_valid_y (.vec [1])) = true) ∧
    ((condense (.vec [1, 2, 3])).length ≠ (condense (.vec [1])).length) ∧
    Test (fun _ => [0, 1, 2]) (.vec [1, 2, 3]) (.vec [1]) 5 "pearson" =
      .error .sizeMismatch :=
  ⟨by decide, by decide, by decide,
    size_mismatch_error (fun _ => [0, 1, 2]) 5 "pearson" (.vec [1, 2, 3]) (.vec [1])
      (by decide) (by decide) (by decide)⟩

/-! ### C3: the reported statistics -/

/-- C3: whenever `Test` returns `(z, r, m, sd)`, `m` is the arithmetic mean
of the `perms` Monte Carlo sample correlations, `sd` is their population
standard deviation (divisor `perms`, not `perms - 1`), and `z = (r - m) / sd`. -/
theorem reported_stats_formulas (orders : ℕ → List ℕ) (perms : ℕ)
    (method : String) (X Y : DistInput) (x y : List ℚ) (z r m sd : ℝ)
    (hp : prepare method X Y = .ok (x, y))
    (ht : Test orders X Y perms method = .ok (z, r, m, sd)) :
    m = (mcLoop orders (residuals x) (sqform_tomatrix (residuals y)) (denomR x y) perms).sum
          / (perms : ℝ) ∧
    sd = Real.sqrt
        (((mcLoop orders (residuals x) (sqform_tomatrix (residuals y)) (denomR x y) perms).map
            fun c => (c - m) ^ 2).sum / (perms : ℝ)) ∧
    z = (r - m) / sd := by
  rw [Test, hp] at ht
  simp only [Except.map] at ht
  have hS : mantelStats orders perms x y = (z, r, m, sd) := by
    injection ht
  simp only [mantelStats] at hS
  have hlen : (mcLoop orders (residuals x) (sqform_tomatrix (residuals y))
      (denomR x y) perms).length = perms := mcLoop_length _ _ _ _ _
  rw [hlen] at hS
  simp only [Prod.mk.injEq] at hS
  obtain ⟨hz, hr, hm, hsd⟩ := hS
  subst hr hm hsd hz
  exact ⟨rfl, rfl, rfl⟩

theorem reported_stats_formulas_witness :
    (prepare "pearson" (.vec [1, 2, 3]) (.vec [2, 4, 5]) = .ok ([1, 2, 3], [2, 4, 5])) ∧
    ((mantelStats (fun _ => [1, 0, 2]) 1 [1, 2, 3] [2, 4, 5]).2.2.1 =
        (mcLoop (fun _ => [1, 0, 2]) (residuals [1, 2, 3])
            (sqform_tomatrix (residuals [2, 4, 5])) (denomR [1, 2, 3] [2, 4, 5]) 1).sum
          / ((1 : ℕ) : ℝ) ∧
      (mantelStats (fun _ => [1, 0, 2]) 1 [1, 2, 3] [2, 4, 5]).2.2.2 =
        Real.sqrt
          (((mcLoop (fun _ => [1, 0, 2]) (residuals [1, 2, 3])
                (sqform_tomatrix (residuals [2, 4, 5])) (denomR [1, 2, 3] [2, 4, 5]) 1).map
              fun c => (c - (mantelStats (fun _ => [1, 0, 2]) 1 [1, 2, 3] [2, 4, 5]).2.2.1) ^ 2).sum
            / ((1 : ℕ) : ℝ)) ∧
      (mantelStats (fun _ => [1, 0, 2]) 1 [1, 2, 3] [2, 4, 5]).1 =
        ((mantelStats (fun _ => [1, 0, 2]) 1 [1, 2, 3] [2, 4, 5]).2.1 -
            (mantelStats (fun _ => [1, 0, 2]) 1 [1, 2, 3] [2, 4, 5]).2.2.1) /
          (mantelStats (fun _ => [1, 0, 2]) 1 [1, 2, 3] [2, 4, 5]).2.2.2) :=
  ⟨rfl,
    reported_stats_formulas (fun _ => [1, 0, 2]) 1 "pearson" (.vec [1, 2, 3]) (.vec [2, 4, 5])
      [1, 2, 3] [2, 4, 5]
      (mantelStats (fun _ => [1, 0, 2]) 1 [1, 2, 3] [2, 4, 5]).1
      (mantelStats (fun _ => [1, 0, 2]) 1 [1, 2, 3] [2, 4, 5]).2.1
      (mantelStats (fun _ => [1, 0, 2]) 1 [1, 2, 3] [2, 4, 5]).2.2.1
      (mantelStats (fun _ => [1, 0, 2]) 1 [1, 2, 3] [2, 4, 5]).2.2.2
      rfl rfl⟩

/-! ### C1: the veridical correlation is the Pearson coefficient -/

theorem dot_self_nonneg (xs : List ℚ) : 0 ≤ dot xs xs := by
  rw [dot, List.zipWith_same]
  apply List.sum_nonneg
  intro a ha
  obtain ⟨b, _, rfl⟩ := List.mem_map.mp ha
  exact mul_self_nonneg b

theorem dot_res_eq (x y : List ℚ) :
    dot (residuals x) (residuals y) =
      (List.zipWith (fun a b => (a - npMean x) * (b - npMean y)) x y).sum := by
  rw [dot, residuals, residuals, List.zipWith_map]

theorem dot_res_self_eq (x : List ℚ) :
    dot (residuals x) (residuals x) = (x.map fun a => (a - npMean x) ^ 2).sum := by
  rw [dot, List.zipWith_same, residuals, List.map_map]
  congr 1
  simp [Function.comp_def, pow_two]

theorem mantel_r_eq (orders : ℕ → List ℕ) (perms : ℕ) (x y : List ℚ) :
    (mantelStats orders perms x y).2.1 = specPearson x y := by
  show (((dot (residuals x) (residuals y) : ℚ) : ℝ) / denomR x y) = specPearson x y
  rw [specPearson, denomR, dot_res_eq, ← dot_res_self_eq x, ← dot_res_self_eq y]
  rw [Rat.cast_mul, Real.sqrt_mul (by exact_mod_cast dot_self_nonneg (residuals x))]

/-- C1: the `r` returned by `Test` — `sum(X_res * Y_res) / denominator` on
the original, unpermuted normalized vectors — equals the Pearson correlation
coefficient of the two normalized vectors (the rank-transformed vectors in
spearman mode, since `x` and `y` are the outputs of `prepare`). -/
theorem veridical_r_eq_specPearson (orders : ℕ → List ℕ) (perms : ℕ)
    (method : String) (X Y : DistInput) (x y : List ℚ)
    (hp : prepare method X Y = .ok (x, y)) :
    ∃ z m sd, Test orders X Y perms method = .ok (z, specPearson x y, m, sd) := by
  refine ⟨(mantelStats orders perms x y).1, (mantelStats orders perms x y).2.2.1,
      (mantelStats orders perms x y).2.2.2, ?_⟩
  rw [Test, hp]
  simp only [Except.map]
  rw [← mantel_r_eq orders perms x y]

theorem veridical_r_eq_specPearson_witness :
    (prepare "pearson" (.vec [1, 2, 3]) (.vec [2, 4, 5]) = .ok ([1, 2, 3], [2, 4, 5])) ∧
    ∃ z m sd,
      Test (fun _ => [0, 1, 2]) (.vec [1, 2, 3]) (.vec [2, 4, 5]) 3 "pearson" =
        .ok (z, specPearson [1, 2, 3] [2, 4, 5], m, sd) :=
  ⟨rfl,
    veridical_r_eq_specPearson (fun _ => [0, 1, 2]) 3 "pearson" (.vec [1, 2, 3])
      (.vec [2, 4, 5]) [1, 2, 3] [2, 4, 5] rfl⟩

/-! ### `ceilSqrt` is the ceiling of the square root -/

theorem ceilSqrtAux_spec (m : ℕ) : ∀ (fuel d : ℕ), d + fuel = m →
    (∀ e, e < d → ¬ m ≤ e * e) →
    m ≤ ceilSqrtAux m fuel d * ceilSqrtAux m fuel d ∧
      ∀ e, m ≤ e * e → ceilSqrtAux m fuel d ≤ e := by
  intro fuel
  induction fuel with
  | zero =>
      intro d hd hbelow
      have hdm : d = m := by omega
      subst hdm
      simp only [ceilSqrtAux]
      constructor
      · rcases Nat.eq_zero_or_pos d with h0 | h0
        · simp [h0]
        · calc d = d * 1 := (Nat.mul_one d).symm
            _ ≤ d * d := Nat.mul_le_mul_left d h0
      · intro e he
        by_contra hcon
        exact hbelow e (by omega) he
  | succ fuel ih =>
      intro d hd hbelow
      by_cases hdd : m ≤ d * d
      · rw [ceilSqrtAux, if_pos hdd]
        refine ⟨hdd, fun e he => ?_⟩
        by_contra hcon
        exact hbelow e (by omega) he
      · rw [ceilSqrtAux, if_neg hdd]
        refine ih (d + 1) (by omega) (fun e he => ?_)
        rcases Nat.lt_succ_iff_lt_or_eq.mp he with h | h
        · exact hbelow e h
        · subst h; exact hdd

theorem ceilSqrt_le_sq (m : ℕ) : m ≤ ceilSqrt m * ceilSqrt m :=
  (ceilSqrtAux_spec m m 0 (by omega) (fun e he => absurd he (Nat.not_lt_zero e))).1

theorem ceilSqrt_min (m e : ℕ) (h : m ≤ e * e) : ceilSqrt m ≤ e :=
  (ceilSqrtAux_spec m m 0 (by omega) (fun e' he' => absurd he' (Nat.not_lt_zero e'))).2 e h

theorem mul_pred_even (d : ℕ) : 2 ∣ d * (d - 1) := by
  rcases d with _ | e
  · simp
  · simpa [Nat.mul_comm] using (Nat.even_mul_succ_self e).two_dvd

/-- For lengths of the triangular form `n*(n-1)/2`, the `d` recovered by
`ceil(sqrt(2*L))` satisfies `d*(d-1) = 2*L` again. -/
theorem ceilSqrt_triangular (L n : ℕ) (h : 2 * L = n * (n - 1)) :
    ceilSqrt (2 * L) * (ceilSqrt (2 * L) - 1) = 2 * L := by
  by_cases hL : L = 0
  · subst hL
    have h0 : ceilSqrt 0 = 0 := Nat.le_zero.mp (ceilSqrt_min 0 0 (by simp))
    norm_num [h0]
  · have hL' : 0 < L := Nat.pos_of_ne_zero hL
    have hn2 : 2 ≤ n := by
      rcases n with _ | _ | n
      · omega
      · omega
      · omega
    have hd : ceilSqrt (2 * L) = n := by
      apply le_antisymm
      · apply ceilSqrt_min
        rw [h]
        exact Nat.mul_le_mul_left n (Nat.sub_le n 1)
      · by_contra hcon
        push_neg at hcon
        have h1 := ceilSqrt_le_sq (2 * L)
        have h2 : ceilSqrt (2 * L) ≤ n - 1 := by omega
        have h3 : ceilSqrt (2 * L) * ceilSqrt (2 * L) ≤ (n - 1) * (n - 1) :=
          Nat.mul_le_mul h2 h2
        have h4 : (n - 1) * (n - 1) < n * (n - 1) :=
          Nat.mul_lt_mul_of_lt_of_le (by omega) (le_refl (n - 1)) (by omega)
        omega
    rw [hd]
    omega

/-! ### C5: invalid inputs are rejected -/

/-- C5: `Test` raises the `'... is not a valid distance matrix'` error
exactly when an input is accepted neither by `is_valid_dm` nor by
`is_valid_y` (checking `X` before `Y`); a 1-D input can only pass the
condensed-vector check and a 2-D input only the matrix check; the
condensed-vector check accepts exactly the lengths of the form `n*(n-1)/2`,
and the matrix check accepts exactly the square symmetric zero-diagonal
matrices. -/
theorem invalid_input_error (orders : ℕ → List ℕ) (perms : ℕ) (method : String)
    (X Y : DistInput) :
    ((is_valid_dm X || is_valid_y X) = false →
        Test orders X Y perms method = .error .invalidX) ∧
    ((is_valid_dm X || is_valid_y X) = true →
      (is_valid_dm Y || is_valid_y Y) = false →
        Test orders X Y perms method = .error .invalidY) ∧
    (∀ v, is_valid_dm (.vec v) = false) ∧
    (∀ N, is_valid_y (.mat N) = false) ∧
    (∀ v : List ℚ, is_valid_y (.vec v) = true ↔ ∃ n, 2 * v.length = n * (n - 1)) ∧
    (∀ N : List (List ℚ), is_valid_dm (.mat N) = true ↔
      ((∀ row ∈ N, row.length = N.length) ∧
        (∀ i j, matGet N i j = matGet N j i) ∧
        (∀ i, matGet N i i = 0))) := by
  refine ⟨?_, ?_, fun _ => rfl, fun _ => rfl, ?_, ?_⟩
  · intro h
    have h1 : is_valid_dm X = false ∧ is_valid_y X = false := by
      cases hdm : is_valid_dm X <;> cases hy : is_valid_y X <;> simp_all
    simp [Test, prepare, h1.1, h1.2, Except.map]
  · intro hX h
    have h1 : ¬(is_valid_dm X = false ∧ is_valid_y X = false) := by
      intro hc
      rw [hc.1, hc.2] at hX
      simp at hX
    have h2 : is_valid_dm Y = false ∧ is_valid_y Y = false := by
      cases hdm : is_valid_dm Y <;> cases hy : is_valid_y Y <;> simp_all
    simp [Test, prepare, h1, h2.1, h2.2, Except.map]
  · intro v
    simp only [is_valid_y, beq_iff_eq]
    constructor
    · intro h
      refine ⟨ceilSqrt (2 * v.length), ?_⟩
      have heven := mul_pred_even (ceilSqrt (2 * v.length))
      omega
    · rintro ⟨n, hn⟩
      have := ceilSqrt_triangular v.length n hn
      omega
  · intro N
    simp only [is_valid_dm, Bool.and_eq_true, List.all_eq_true, beq_iff_eq,
      decide_eq_true_eq]
    have hrow_oob : ∀ i, N.length ≤ i → N.getD i [] = [] := fun i h =>
      List.getD_eq_default _ _ h
    constructor
    · rintro ⟨⟨hsq, hsym⟩, hdiag⟩
      have hlen : ∀ i, (N.getD i []).length ≤ N.length := by
        intro i
        by_cases hi : i < N.length
        · exact le_of_eq (hsq _ (by rw [List.getD_eq_getElem _ _ hi]; exact List.getElem_mem _))
        · rw [hrow_oob i (by omega)]; simp
      have hzero : ∀ i j, N.length ≤ j → matGet N i j = 0 := by
        intro i j hj
        unfold matGet
        exact List.getD_eq_default _ _ (le_trans (hlen i) hj)
      have hzero' : ∀ i j, N.length ≤ i → matGet N i j = 0 := by
        intro i j hi
        unfold matGet
        rw [hrow_oob i hi]
        simp
      refine ⟨hsq, fun i j => ?_, fun i => ?_⟩
      · by_cases hi : i < N.length <;> by_cases hj : j < N.length
        · exact hsym i hi j hj
        · rw [hzero i j (by omega), hzero' j i (by omega)]
        · rw [hzero' i j (by omega), hzero j i (by omega)]
        · rw [hzero' i j (by omega), hzero' j i (by omega)]
      · by_cases hi : i < N.length
        · exact hdiag i hi
        · exact hzero' i i (by omega)
    · rintro ⟨hsq, hsym, hdiag⟩
      exact ⟨⟨hsq, fun i _ j _ => hsym i j⟩, fun i _ => hdiag i⟩

theorem invalid_input_error_witness :
    ((is_valid_dm (.vec [1, 2]) || is_valid_y (.vec [1, 2])) = false) ∧
    Test (fun _ => [0, 1, 2]) (.vec [1, 2]) (.vec [1, 2, 3]) 4 "pearson" =
      .error .invalidX :=
  ⟨by decide,
    (invalid_input_error (fun _ => [0, 1, 2]) 4 "pearson" (.vec [1, 2])
      (.vec [1, 2, 3])).1 (by decide)⟩

/-! ### C8: expand/condense round trip -/

theorem map_drop1_zipWith_cons : ∀ (a : List ℚ) (b : List (List ℚ)),
    a.length = b.length →
    (List.zipWith List.cons a b).map (fun r => r.drop 1) = b := by
  intro a
  induction a with
  | nil =>
      intro b hb
      obtain rfl : b = [] := List.eq_nil_of_length_eq_zero (by simpa using hb.symm)
      rfl
  | cons x xs ih =>
      intro b hb
      rcases b with _ | ⟨r, rs⟩
      · simp at hb
      · simp only [List.zipWith, List.map]
        rw [ih rs (by simpa using hb)]
        simp

theorem roundtrip_aux : ∀ (n : ℕ) (v : List ℚ), 2 * v.length = n * (n - 1) →
    (tomatrixAux n v).length = n ∧
      tovectorAux (tomatrixAux n v).length (tomatrixAux n v) = v := by
  intro n
  induction n with
  | zero =>
      intro v hv
      have hnil : v = [] := List.eq_nil_of_length_eq_zero (by omega)
      subst hnil
      exact ⟨rfl, rfl⟩
  | succ n ih =>
      intro v hv
      have hexp : (n + 1) * (n + 1 - 1) = n * n + n := by
        simp only [Nat.add_sub_cancel]
        ring
      have hsq : n ≤ n * n := by
        rcases Nat.eq_zero_or_pos n with h0 | h0
        · simp [h0]
        · calc n = n * 1 := (Nat.mul_one n).symm
            _ ≤ n * n := Nat.mul_le_mul_left n h0
      have hv' : n ≤ v.length := by omega
      have hsub : n * (n - 1) = n * n - n := by
        rcases n with _ | k
        · simp
        · have h1 : (k + 1) * (k + 1) = (k + 1) * k + (k + 1) := by ring
          have h2 : (k + 1) * (k + 1 - 1) = (k + 1) * k := by simp
          omega
      have hdrop : 2 * (v.drop n).length = n * (n - 1) := by
        rw [List.length_drop]
        omega
      obtain ⟨ihlen, ihrt⟩ := ih (v.drop n) hdrop
      have htake : (v.take n).length = n := by
        rw [List.length_take]
        omega
      have hzip : (List.zipWith List.cons (v.take n) (tomatrixAux n (v.drop n))).map
          (fun r => r.drop 1) = tomatrixAux n (v.drop n) :=
        map_drop1_zipWith_cons _ _ (by rw [htake, ihlen])
      have hziplen :
          (List.zipWith List.cons (v.take n) (tomatrixAux n (v.drop n))).length = n := by
        rw [List.length_zipWith, htake, ihlen]
        simp
      have hlen1 : (tomatrixAux (n + 1) v).length = n + 1 := by
        simp [tomatrixAux, hziplen]
      refine ⟨hlen1, ?_⟩
      rw [hlen1]
      show tovectorAux (n + 1) ((0 :: v.take n) :: _) = v
      rw [tovectorAux, hzip]
      rw [ihlen] at ihrt
      rw [ihrt]
      simp

/-- C8: for every valid condensed distance vector (a vector whose length is
of the form `n*(n-1)/2`), expanding it to its symmetric zero-diagonal matrix
form and condensing the matrix back with the same upper-triangle convention
returns the original vector exactly. -/
theorem condensed_roundtrip (v : List ℚ) (h : ∃ n, 2 * v.length = n * (n - 1)) :
    sqform_tovector (sqform_tomatrix v) = v := by
  obtain ⟨n, hn⟩ := h
  have hd := ceilSqrt_triangular v.length n hn
  exact (roundtrip_aux (ceilSqrt (2 * v.length)) v hd.symm).2

theorem condensed_roundtrip_witness :
    (∃ n, 2 * ([1, 2, 3, 4, 5, 6] : List ℚ).length = n * (n - 1)) ∧
    sqform_tovector (sqform_tomatrix [1, 2, 3, 4, 5, 6]) = [1, 2, 3, 4, 5, 6] :=
  ⟨⟨4, by decide⟩, condensed_roundtrip [1, 2, 3, 4, 5, 6] ⟨4, by decide⟩⟩

/-! ### C9: simultaneous row/column permutation preserves validity -/

theorem matGet_permuteMat (M : List (List ℚ)) (order : List ℕ) (i j : ℕ)
    (hi : i < order.length) (hj : j < order.length) :
    matGet (permuteMat M order) i j = matGet M (order.getD i 0) (order.getD j 0) := by
  simp only [permuteMat, matGet, List.getD_eq_getElem?_getD, List.getElem?_map,
    List.getElem?_eq_getElem hi, List.getElem?_eq_getElem hj]
  simp [List.getElem?_eq_getElem hj]

/-- C9: permuting the rows and columns of a valid (square, symmetric,
zero-diagonal) distance matrix simultaneously by the same permutation of
`{0, ..., n-1}` — numpy's `M[order, :][:, order]` in each Monte Carlo
trial — yields again a valid symmetric zero-diagonal matrix. -/
theorem permuted_matrix_valid (M : List (List ℚ)) (order : List ℕ)
    (hM : is_valid_dm (.mat M) = true) (horder : order.Perm (List.range M.length)) :
    is_valid_dm (.mat (permuteMat M order)) = true := by
  have hlen : order.length = M.length := by simpa using horder.length_eq
  have hmem : ∀ o ∈ order, o < M.length := fun o ho =>
    List.mem_range.mp (horder.subset ho)
  simp only [is_valid_dm, Bool.and_eq_true, List.all_eq_true, beq_iff_eq,
    decide_eq_true_eq] at hM ⊢
  obtain ⟨⟨hsq, hsym⟩, hdiag⟩ := hM
  have hplen : (permuteMat M order).length = order.length := by
    simp [permuteMat]
  have hget : ∀ k, k < order.length → order.getD k 0 < M.length := fun k hk =>
    hmem _ (by rw [List.getD_eq_getElem _ _ hk]; exact List.getElem_mem _)
  refine ⟨⟨?_, ?_⟩, ?_⟩
  · intro row hrow
    obtain ⟨o, _, rfl⟩ := List.mem_map.mp hrow
    simp [hplen]
  · intro i hi j hj
    rw [hplen] at hi hj
    rw [matGet_permuteMat M order i j hi hj, matGet_permuteMat M order j i hj hi]
    exact hsym _ (hget i hi) _ (hget j hj)
  · intro i hi
    rw [hplen] at hi
    rw [matGet_permuteMat M order i i hi hi]
    exact hdiag _ (hget i hi)

theorem permuted_matrix_valid_witness :
    (is_valid_dm (.mat [[0, 1, 2], [1, 0, 3], [2, 3, 0]]) = true) ∧
    ([2, 0, 1].Perm (List.range ([[0, 1, 2], [1, 0, 3], [2, 3, 0]] : List (List ℚ)).length)) ∧
    is_valid_dm (.mat (permuteMat [[0, 1, 2], [1, 0, 3], [2, 3, 0]] [2, 0, 1])) = true :=
  ⟨by decide, by decide,
    permuted_matrix_valid [[0, 1, 2], [1, 0, 3], [2, 3, 0]] [2, 0, 1] (by decide) (by decide)⟩

/-! ### C7: spearman mode ranks first, with fractional ranking of ties -/

theorem countP_disjoint_le_length (l : List ℚ) (p q : ℚ → Bool)
    (hd : ∀ a, ¬(p a = true ∧ q a = true)) :
    l.countP p + l.countP q ≤ l.length := by
  induction l with
  | nil => simp
  | cons a t ih =>
      rw [List.countP_cons, List.countP_cons, List.length_cons]
      have hda := hd a
      by_cases hp : p a = true <;> by_cases hq : q a = true <;> simp_all <;> omega

/-- In a sorted list, a position holds the value `v` exactly when it lies in
the block of positions `[countP (< v), countP (< v) + countP (= v))`. -/
theorem sorted_getD_eq_iff (v : ℚ) : ∀ (s : List ℚ), s.Sorted (· ≤ ·) →
    ∀ p, p < s.length →
      (s.getD p 0 = v ↔
        (s.countP (fun y => decide (y < v)) ≤ p ∧
          p < s.countP (fun y => decide (y < v)) + s.countP (fun y => decide (y = v)))) := by
  intro s
  induction s with
  | nil => intro _ p hp; simp at hp
  | cons h t ih =>
      intro hs p hp
      obtain ⟨hhead, ht⟩ := List.sorted_cons.mp hs
      have IH := ih ht
      rcases p with _ | q
      · rw [List.getD_cons_zero, List.countP_cons, List.countP_cons]
        simp only [decide_eq_true_eq]
        rcases lt_trichotomy h v with hlt | heq | hgt
        · rw [if_pos hlt, if_neg (ne_of_lt hlt)]
          exact ⟨fun he => absurd he (ne_of_lt hlt), fun hcon => absurd hcon.1 (by omega)⟩
        · subst heq
          have hcLTt : t.countP (fun y => decide (y < h)) = 0 :=
            List.countP_eq_zero.mpr fun b hb => by
              simp only [decide_eq_true_eq]
              exact not_lt.mpr (hhead b hb)
          rw [if_neg (lt_irrefl h), if_pos rfl, hcLTt]
          exact ⟨fun _ => by omega, fun _ => rfl⟩
        · have hcLTt : t.countP (fun y => decide (y < v)) = 0 :=
            List.countP_eq_zero.mpr fun b hb => by
              simp only [decide_eq_true_eq]
              exact not_lt.mpr (le_of_lt (lt_of_lt_of_le hgt (hhead b hb)))
          have hcEqt : t.countP (fun y => decide (y = v)) = 0 :=
            List.countP_eq_zero.mpr fun b hb => by
              simp only [decide_eq_true_eq]
              exact (ne_of_gt (lt_of_lt_of_le hgt (hhead b hb)))
          rw [if_neg (not_lt.mpr (le_of_lt hgt)), if_neg (ne_of_gt hgt), hcLTt, hcEqt]
          exact ⟨fun he => absurd he (ne_of_gt hgt), fun hcon => absurd hcon.2 (by omega)⟩
      · rw [List.getD_cons_succ, List.countP_cons, List.countP_cons]
        simp only [decide_eq_true_eq]
        have hq : q < t.length := by simpa using hp
        have hIH := IH q hq
        rcases lt_trichotomy h v with hlt | heq | hgt
        · rw [if_pos hlt, if_neg (ne_of_lt hlt), hIH]
          constructor <;> (intro hcon; omega)
        · subst heq
          have hcLTt : t.countP (fun y => decide (y < h)) = 0 :=
            List.countP_eq_zero.mpr fun b hb => by
              simp only [decide_eq_true_eq]
              exact not_lt.mpr (hhead b hb)
          rw [if_neg (lt_irrefl h), if_pos rfl, hIH, hcLTt]
          constructor <;> (intro hcon; omega)
        · have hcLTt : t.countP (fun y => decide (y < v)) = 0 :=
            List.countP_eq_zero.mpr fun b hb => by
              simp only [decide_eq_true_eq]
              exact not_lt.mpr (le_of_lt (lt_of_lt_of_le hgt (hhead b hb)))
          have hcEqt : t.countP (fun y => decide (y = v)) = 0 :=
            List.countP_eq_zero.mpr fun b hb => by
              simp only [decide_eq_true_eq]
              exact (ne_of_gt (lt_of_lt_of_le hgt (hhead b hb)))
          rw [if_neg (not_lt.mpr (le_of_lt hgt)), if_neg (ne_of_gt hgt), hIH, hcLTt, hcEqt]
          constructor <;> (intro hcon; omega)

theorem filter_range_eq_range' : ∀ (n a b : ℕ) (q : ℕ → Bool), a + b ≤ n →
    (∀ p, p < n → (q p = true ↔ a ≤ p ∧ p < a + b)) →
    (List.range n).filter q = List.range' a b := by
  intro n
  induction n with
  | zero =>
      intro a b q hab h
      have hb0 : b = 0 := by omega
      subst hb0
      simp
  | succ n ih =>
      intro a b q hab h
      by_cases hb : a + b ≤ n
      · have hqn : q n = false := by
          cases hqc : q n
          · rfl
          · have := (h n (by omega)).mp hqc
            omega
        rw [List.range_succ, List.filter_append, ih a b q hb (fun p hp => h p (by omega))]
        simp [hqn]
      · rcases Nat.eq_zero_or_pos b with hb0 | hbpos
        · subst hb0
          have hnone : ∀ p ∈ List.range (n + 1), ¬ q p = true := fun p hp hq => by
            have := (h p (List.mem_range.mp hp)).mp hq
            omega
          rw [List.filter_eq_nil_iff.mpr hnone]
          simp
        · obtain ⟨k, rfl⟩ : ∃ k, b = k + 1 := ⟨b - 1, by omega⟩
          have hqn : q n = true := (h n (by omega)).mpr (by omega)
          have hak : a + k = n := by omega
          rw [List.range_succ, List.filter_append,
            ih a k q (by omega) (fun p hp => by rw [h p (by omega)]; omega)]
          rw [List.range'_concat]
          simp [hqn, hak]

theorem range'_rank_sum (a : ℕ) : ∀ b : ℕ,
    ((List.range' a b).map fun p : ℕ => ((p : ℚ) + 1)).sum =
      (b : ℚ) * a + (b : ℚ) * ((b : ℚ) + 1) / 2 := by
  intro b
  induction b with
  | zero => simp
  | succ k ih =>
      rw [List.range'_concat, List.map_append, List.sum_append, ih]
      simp only [List.map_cons, List.map_nil, List.sum_cons, List.sum_nil, one_mul]
      push_cast
      ring

theorem rankdata_getD (xs : List ℚ) (i : ℕ) (hi : i < xs.length) :
    (rankdata xs).getD i 0 =
      ((xs.countP fun y => decide (y < xs.getD i 0) : ℕ) : ℚ) +
        (((xs.countP fun y => decide (y = xs.getD i 0) : ℕ) : ℚ) + 1) / 2 := by
  rw [rankdata, List.getD_eq_getElem _ _ (by simpa using hi), List.getElem_map,
    List.getD_eq_getElem _ _ hi]

/-- `rankdata` assigns each element the average of the 1-based positions that
its value occupies in a sorted rearrangement of the list — in particular tied
values all receive the average of the ranks they would occupy. -/
theorem rank_is_avg_sorted_rank (xs : List ℚ) (i : ℕ) (hi : i < xs.length) :
    (rankdata xs).getD i 0 = specAvgRank xs (xs.getD i 0) := by
  have hvmem : xs.getD i 0 ∈ xs := by
    rw [List.getD_eq_getElem _ _ hi]
    exact List.getElem_mem _
  have hperm : (List.insertionSort (· ≤ ·) xs).Perm xs := List.perm_insertionSort _ _
  have hsorted : (List.insertionSort (· ≤ ·) xs).Sorted (· ≤ ·) :=
    List.sorted_insertionSort _ _
  have hslen : (List.insertionSort (· ≤ ·) xs).length = xs.length := hperm.length_eq
  have hsLT : (List.insertionSort (· ≤ ·) xs).countP
      (fun y => decide (y < xs.getD i 0)) = xs.countP (fun y => decide (y < xs.getD i 0)) :=
    hperm.countP_eq _
  have hsEq : (List.insertionSort (· ≤ ·) xs).countP
      (fun y => decide (y = xs.getD i 0)) = xs.countP (fun y => decide (y = xs.getD i 0)) :=
    hperm.countP_eq _
  have hbound : xs.countP (fun y => decide (y < xs.getD i 0)) +
      xs.countP (fun y => decide (y = xs.getD i 0)) ≤ xs.length := by
    apply countP_disjoint_le_length
    intro a
    simp only [decide_eq_true_eq, not_and]
    intro h1 h2
    rw [h2] at h1
    exact lt_irrefl _ h1
  have hfilter : (List.range xs.length).filter
      (fun p => decide ((List.insertionSort (· ≤ ·) xs).getD p 0 = xs.getD i 0)) =
      List.range' (xs.countP (fun y => decide (y < xs.getD i 0)))
        (xs.countP (fun y => decide (y = xs.getD i 0))) := by
    apply filter_range_eq_range' xs.length _ _ _ hbound
    intro p hp
    rw [decide_eq_true_eq,
      sorted_getD_eq_iff (xs.getD i 0) _ hsorted p (by rw [hslen]; exact hp),
      hsLT, hsEq]
  have hcEqpos : 0 < xs.countP (fun y => decide (y = xs.getD i 0)) :=
    List.countP_pos_iff.mpr ⟨xs.getD i 0, hvmem, by simp⟩
  rw [rankdata_getD xs i hi, specAvgRank, sortedRanksOf, hfilter, range'_rank_sum,
    List.length_map, List.length_range']
  have hne : ((xs.countP fun y => decide (y = xs.getD i 0) : ℕ) : ℚ) ≠ 0 := by
    exact_mod_cast Nat.pos_iff_ne_zero.mp hcEqpos
  field_simp
  ring

/-- C7: in spearman mode `prepare` hands the *rank-transformed* condensed
vectors to all further computation, in pearson mode the raw condensed
vectors, and `rankdata` assigns tied values the average of the ranks they
would occupy in a sorted rearrangement (standard fractional ranking). -/
theorem spearman_ranks_before_computation :
    (∀ (X Y : DistInput) (x y : List ℚ), prepare "spearman" X Y = .ok (x, y) →
        x = rankdata (condense X) ∧ y = rankdata (condense Y)) ∧
    (∀ (X Y : DistInput) (x y : List ℚ), prepare "pearson" X Y = .ok (x, y) →
        x = condense X ∧ y = condense Y) ∧
    (∀ (xs : List ℚ) (i : ℕ), i < xs.length →
        (rankdata xs).getD i 0 = specAvgRank xs (xs.getD i 0)) := by
  refine ⟨?_, ?_, fun xs i hi => rank_is_avg_sorted_rank xs i hi⟩
  · intro X Y x y h
    simp only [prepare] at h
    split at h
    · simp at h
    split at h
    · simp at h
    split at h
    · simp at h
    rw [if_pos (by simp)] at h
    rw [Except.ok.injEq, Prod.mk.injEq] at h
    exact ⟨h.1.symm, h.2.symm⟩
  · intro X Y x y h
    simp only [prepare] at h
    split at h
    · simp at h
    split at h
    · simp at h
    split at h
    · simp at h
    rw [if_neg (by simp)] at h
    rw [Except.ok.injEq, Prod.mk.injEq] at h
    exact ⟨h.1.symm, h.2.symm⟩

theorem spearman_ranks_before_computation_witness :
    (prepare "spearman" (.vec [1, 3, 3]) (.vec [1, 2, 3]) =
        .ok (rankdata [1, 3, 3], rankdata [1, 2, 3])) ∧
    (rankdata [1, 3, 3] = rankdata (condense (.vec [1, 3, 3])) ∧
      rankdata [1, 2, 3] = rankdata (condense (.vec [1, 2, 3]))) ∧
    ((1 : ℕ) < ([1, 3, 3] : List ℚ).length) ∧
    (rankdata [1, 3, 3]).getD 1 0 = specAvgRank [1, 3, 3] ([1, 3, 3].getD 1 0) :=
  ⟨rfl,
    spearman_ranks_before_computation.1 (.vec [1, 3, 3]) (.vec [1, 2, 3]) _ _ rfl,
    by decide,
    spearman_ranks_before_computation.2.2 [1, 3, 3] 1 (by decide)⟩

/-! ### C10: determinism -/

/-- C10: `Test` is deterministic — with the random source fixed to the same
state (the same stream of drawn permutation orders) and identical inputs,
two calls return identical `(z, r, m, sd)` tuples. -/
theorem test_deterministic (o₁ o₂ : ℕ → List ℕ) (X₁ X₂ Y₁ Y₂ : DistInput)
    (p₁ p₂ : ℕ) (m₁ m₂ : String) (ho : o₁ = o₂) (hX : X₁ = X₂) (hY : Y₁ = Y₂)
    (hp : p₁ = p₂) (hm : m₁ = m₂) :
    Test o₁ X₁ Y₁ p₁ m₁ = Test o₂ X₂ Y₂ p₂ m₂ := by
  subst ho hX hY hp hm
  rfl

theorem test_deterministic_witness :
    Test (fun i => [i % 3, (i + 1) % 3, (i + 2) % 3]) (.vec [1, 2, 3]) (.vec [2, 4, 5])
        7 "pearson" =
      Test (fun i => [i % 3, (i + 1) % 3, (i + 2) % 3]) (.vec [1, 2, 3]) (.vec [2, 4, 5])
        7 "pearson" :=
  test_deterministic _ _ _ _ _ _ _ _ _ _ rfl rfl rfl rfl rfl

end Mantel
